import Mathlib

/-!
Verification of the per-epoch training and evaluation drivers in `engine.py`
(`train_one_epoch` and `evaluate`).  The drivers are embedded shallowly as
trace-producing state machines: external collaborators (model forward pass,
loss scaler, EMA shadow model, metric aggregator, activation cache, renderer)
are abstracted exactly at the call boundary visible in the source, and every
observable action of the loop body becomes an event in a trace.  Scalar values
are modelled over `ℚ`.
-/

/-- A scalar loss value as produced by `loss.item()`: a numeric value together
with its finiteness, so that `math.isfinite` is a checkable predicate. -/
structure LossVal where
  val : ℚ
  isFinite : Bool
deriving DecidableEq

/-- Modelled from the spec: a single named running statistic of the external
metric aggregator (`utils.MetricLogger` / `SmoothedValue`, not under `src/`):
a count-weighted running sum, `update(value, n)` adds `value * n` to the total
and `n` to the count, and `global_avg` is `total / count`. -/
structure Meter where
  total : ℚ
  count : ℕ
deriving DecidableEq

def Meter.update (m : Meter) (v : ℚ) (n : ℕ) : Meter :=
  ⟨m.total + v * n, m.count + n⟩

def Meter.globalAvg (m : Meter) : ℚ :=
  m.total / m.count

/-- Modelled from the spec: cross-worker reduction merges the per-worker
totals and counts of a meter (all workers contribute, all read the mean). -/
def Meter.merge (a b : Meter) : Meter :=
  ⟨a.total + b.total, a.count + b.count⟩

/-- Observable events of one epoch of `train_one_epoch`, tagged with the
`data_iter_step` index of the batch that produced them. -/
inductive TrainEvent where
  | toDevice (i : ℕ)
  | mixupApplied (i : ℕ)
  | forward (i : ℕ)
  | printDiag (i : ℕ)
  | zeroGrad (i : ℕ)
  | optStep (i : ℕ)
  | sync (i : ℕ)
  | emaUpdate (i : ℕ)
  | meterLoss (i : ℕ) (v : ℚ)
  | meterLr (i : ℕ) (lr : ℚ)
  | logScalar (i : ℕ) (tag : String) (v : ℚ) (x : ℤ)
deriving DecidableEq

/-- The batch index a training event is tagged with. -/
def TrainEvent.idx : TrainEvent → ℕ
  | .toDevice i => i
  | .mixupApplied i => i
  | .forward i => i
  | .printDiag i => i
  | .zeroGrad i => i
  | .optStep i => i
  | .sync i => i
  | .emaUpdate i => i
  | .meterLoss i _ => i
  | .meterLr i _ => i
  | .logScalar i _ _ _ => i

/-- Configuration of `train_one_epoch`: the epoch index, presence flags for
the optional collaborators (`mixup_fn`, `model_ema`, `log_writer`), the
initial learning rate of the optimizer's first parameter group, the effect of
the scaled optimization step (`loss_scaler(...)`, which steps the optimizer)
on that learning rate, and the distributed mean reduction
(`utils.all_reduce_mean`), all abstract at the call boundary. -/
structure TrainCfg where
  epoch : ℕ
  hasMixup : Bool
  hasEma : Bool
  hasLog : Bool
  lr0 : ℚ
  stepLr : ℕ → ℚ → ℚ
  allReduceMean : ℚ → ℚ

/-- The tensorboard x-axis coordinate `int((data_iter_step / len(data_loader)
+ epoch) * 1000)` from `train_one_epoch`.  `int()` truncates toward zero;
the argument is nonnegative here, where truncation coincides with `⌊·⌋`. -/
def epoch_1000x (step nb epoch : ℕ) : ℤ :=
  Int.floor ((((step : ℚ) / (nb : ℚ)) + (epoch : ℚ)) * 1000)

/-- Meters kept by `train_one_epoch`'s metric logger: `loss` and `lr`. -/
structure TrainMeters where
  loss : Meter
  lr : Meter
deriving DecidableEq

def initTrainMeters : TrainMeters := ⟨⟨0, 0⟩, ⟨0, 0⟩⟩

/-- Result of `train_one_epoch`: either the returned metric map after a full
epoch, or the process terminated via `sys.exit`. -/
inductive TrainResult where
  | finished (trace : List TrainEvent) (stats : List (String × ℚ))
  | exited (code : ℕ) (trace : List TrainEvent)
deriving DecidableEq

/-- Events of the prefix of one training step, up to the loss computation
(lines 41-49 of `engine.py`): device transfer, optional mixup, forward pass
and loss. -/
def trainStepPre (cfg : TrainCfg) (i : ℕ) : List TrainEvent :=
  [.toDevice i] ++ (if cfg.hasMixup then [.mixupApplied i] else []) ++ [.forward i]

/-- Events of the remainder of one training step when the loss is finite
(lines 57-80 of `engine.py`): zero grad, scaled optimization step, device
synchronization, optional EMA update, meter updates, optional tensorboard
logging at the `epoch_1000x` coordinate.  `lr'` is the learning rate read
from the optimizer's first parameter group after the optimization step. -/
def trainStepPost (cfg : TrainCfg) (nb i : ℕ) (v : ℚ) (lr' : ℚ) : List TrainEvent :=
  [.zeroGrad i, .optStep i, .sync i] ++
  (if cfg.hasEma then [.emaUpdate i] else []) ++
  [.meterLoss i v, .meterLr i lr'] ++
  (if cfg.hasLog then
    [.logScalar i "loss" (cfg.allReduceMean v) (epoch_1000x i nb cfg.epoch),
     .logScalar i "lr" lr' (epoch_1000x i nb cfg.epoch)]
   else [])

/-- The per-batch loop of `train_one_epoch` (lines 40-80 of `engine.py`),
threading the batch index, the optimizer's learning rate and the metric
logger through the remaining batches.  A non-finite loss prints a diagnostic
and exits the process with status 1 before `optimizer.zero_grad()`. -/
def trainBatches (cfg : TrainCfg) (nb : ℕ) : ℕ → ℚ → TrainMeters → List LossVal → TrainResult
  | _, _, ms, [] => .finished [] [("loss", ms.loss.globalAvg), ("lr", ms.lr.globalAvg)]
  | i, lr, ms, l :: rest =>
    if l.isFinite then
      let lr' := cfg.stepLr i lr
      let ms' : TrainMeters := ⟨ms.loss.update l.val 1, ms.lr.update lr' 1⟩
      match trainBatches cfg nb (i + 1) lr' ms' rest with
      | .finished tr st => .finished (trainStepPre cfg i ++ trainStepPost cfg nb i l.val lr' ++ tr) st
      | .exited c tr => .exited c (trainStepPre cfg i ++ trainStepPost cfg nb i l.val lr' ++ tr)
    else
      .exited 1 (trainStepPre cfg i ++ [.printDiag i])

/-- `train_one_epoch` over the epoch's list of per-batch loss values
(the model, criterion and data loader are abstracted into the loss each
batch yields); `len(data_loader)` is the number of batches. -/
def train_one_epoch (cfg : TrainCfg) (bs : List LossVal) : TrainResult :=
  trainBatches cfg bs.length 0 cfg.lr0 initTrainMeters bs

/-- The trace of observable events of a training run, whether it finished
the epoch or exited. -/
def TrainResult.trace : TrainResult → List TrainEvent
  | .finished tr _ => tr
  | .exited _ tr => tr

/-- The event trace of a full run over `bs` starting at batch index `i` with
learning rate `lr`, when every loss is finite. -/
def trainTraceFrom (cfg : TrainCfg) (nb : ℕ) : ℕ → ℚ → List LossVal → List TrainEvent
  | _, _, [] => []
  | i, lr, l :: rest =>
    trainStepPre cfg i ++ trainStepPost cfg nb i l.val (cfg.stepLr i lr) ++
    trainTraceFrom cfg nb (i + 1) (cfg.stepLr i lr) rest

/-- The learning rate after the optimization steps of batches `i, …, i+k`,
starting from `lr` before batch `i`. -/
def lrThread (cfg : TrainCfg) : ℕ → ℚ → ℕ → ℚ
  | i, lr, 0 => cfg.stepLr i lr
  | i, lr, k + 1 => lrThread cfg (i + 1) (cfg.stepLr i lr) k

/-- The learning rate of the optimizer's first parameter group after the
scaled optimization step of batch `i` of the epoch. -/
def lrAfter (cfg : TrainCfg) (i : ℕ) : ℚ :=
  lrThread cfg 0 cfg.lr0 i

/-- One evaluation batch: its size `n` (the leading dimension of `images`
and `target`), its labels, the scalar loss / top-1 / top-5 values its outputs
produce, and the names of the activation tensors its forward pass writes into
the side-channel cache. -/
structure EvalBatch where
  n : ℕ
  target : ℕ → ℕ
  lossv : ℚ
  acc1 : ℚ
  acc5 : ℚ
  writes : List String

/-- An entry of the captured-activations side channel (`local_cache`): a
qualified tensor name together with the index of the batch whose forward
pass produced it. -/
abbrev CacheEntry := String × ℕ

/-- Observable events of one `evaluate` pass.  `b` is the loop index of the
batch in the data loader; `forwardDone` snapshots the cache contents right
after that batch's forward pass; `fetch` records a read of `ori_dataset` at a
global index; `drawCell` records cell `i` of the 10×10 grid being populated;
`saveFig` records one attention figure written for the given `batch_num`. -/
inductive EvalEvent where
  | kernelFigure
  | cacheCleared (b : ℕ)
  | forwardDone (b : ℕ) (cache : List CacheEntry)
  | fetch (b : ℕ) (globalIdx : ℕ)
  | drawCell (b : ℕ) (i : ℕ)
  | saveFig (b : ℕ) (batchNum : ℕ)
  | meterLoss (v : ℚ)
  | meterAcc1 (v : ℚ) (n : ℕ)
  | meterAcc5 (v : ℚ) (n : ℕ)
deriving DecidableEq

/-- Meters kept by `evaluate`'s metric logger: `loss`, `acc1`, `acc5`. -/
structure EvalMeters where
  loss : Meter
  acc1 : Meter
  acc5 : Meter
deriving DecidableEq

def initEvalMeters : EvalMeters := ⟨⟨0, 0⟩, ⟨0, 0⟩, ⟨0, 0⟩⟩

/-- Modelled from the spec: `synchronize_between_processes` merges each
worker's meters with the contributions of its peers. -/
def EvalMeters.merge (a b : EvalMeters) : EvalMeters :=
  ⟨a.loss.merge b.loss, a.acc1.merge b.acc1, a.acc5.merge b.acc5⟩

/-- Events of the visualization branch of `evaluate` for one batch (lines
155-185 of `engine.py`): for each of the first 100 local sample indices `i`,
fetch `ori_dataset[batch_size * batch_num + i]` and populate grid cell `i`
only when the fetched label equals `target[i]`; then save one figure (one
overlay-transparency value is configured) named after `batch_num`. -/
def visEvents (f : ℕ → ℕ) (bt : EvalBatch) (b batchNum : ℕ) : List EvalEvent :=
  ((List.range 100).flatMap fun i =>
    .fetch b (bt.n * batchNum + i) ::
    (if f (bt.n * batchNum + i) = bt.target i then [.drawCell b i] else []))
  ++ [.saveFig b batchNum]

/-- The per-batch loop of `evaluate` (lines 128-194 of `engine.py`),
threading the loop index `b`, the visualization batch counter `batch_num`,
the side-channel cache and the metric logger.  Each iteration clears the
cache, runs the forward pass (which appends the batch's activation entries),
enters the visualization branch only when `ori_dataset` is supplied and the
batch has at least 100 samples (incrementing `batch_num` only there), and
records loss with unit weight and both accuracies weighted by the batch
size. -/
def evalBatches (ori : Option (ℕ → ℕ)) :
    ℕ → ℕ → List CacheEntry → EvalMeters → List EvalBatch → List EvalEvent × EvalMeters
  | _, _, _, ms, [] => ([], ms)
  | b, batchNum, cache, ms, bt :: rest =>
    let cacheCleared : List CacheEntry := []
    let cacheAfterFwd := cacheCleared ++ bt.writes.map fun nm => (nm, b)
    let visPart : List EvalEvent × ℕ :=
      match ori with
      | some f => if 100 ≤ bt.n then (visEvents f bt b batchNum, batchNum + 1) else ([], batchNum)
      | none => ([], batchNum)
    let ms' : EvalMeters :=
      ⟨ms.loss.update bt.lossv 1, ms.acc1.update bt.acc1 bt.n, ms.acc5.update bt.acc5 bt.n⟩
    let rec' := evalBatches ori (b + 1) visPart.2 cacheAfterFwd ms' rest
    ([.cacheCleared b, .forwardDone b cacheAfterFwd] ++ visPart.1 ++
     [.meterLoss bt.lossv, .meterAcc1 bt.acc1 bt.n, .meterAcc5 bt.acc5 bt.n] ++ rec'.1,
     rec'.2)

/-- `evaluate` over the pass's list of batches: when `ori_dataset` is
supplied, first one convolutional-kernels figure per parameter named
`downsample_layers.0.0.weight` (lines 104-117 of `engine.py`); then the
per-batch loop; then cross-worker meter reduction and the returned
metric-name → global-average map.  `ori` abstracts `ori_dataset` as the
label at each global index; `paramNames` are the model's parameter names;
`peers` are the meter contributions of the other distributed workers. -/
def evaluate (ori : Option (ℕ → ℕ)) (paramNames : List String)
    (peers : List EvalMeters) (bs : List EvalBatch) : List EvalEvent × List (String × ℚ) :=
  let kernelEvs : List EvalEvent :=
    match ori with
    | some _ => paramNames.flatMap fun nm =>
        if nm = "downsample_layers.0.0.weight" then [.kernelFigure] else []
    | none => []
  let r := evalBatches ori 0 0 [] initEvalMeters bs
  let msR := peers.foldl EvalMeters.merge r.2
  (kernelEvs ++ r.1,
   [("loss", msR.loss.globalAvg), ("acc1", msR.acc1.globalAvg), ("acc5", msR.acc5.globalAvg)])

/-- Number of attention figures saved in an evaluation trace. -/
def figCount (tr : List EvalEvent) : ℕ :=
  tr.countP fun e => match e with | .saveFig _ _ => true | _ => false

/-- Number of populated grid cells in an evaluation trace. -/
def drawCount (tr : List EvalEvent) : ℕ :=
  tr.countP fun e => match e with | .drawCell _ _ => true | _ => false

/-- The value of `batch_num` when batch `k` of the pass is reached: the
number of earlier batches that entered the visualization branch. -/
def visCount (bs : List EvalBatch) (k : ℕ) : ℕ :=
  ((bs.take k).filter fun b => 100 ≤ b.n).length

/-- The event trace of the per-batch loop of `evaluate` starting at loop
index `b` with visualization counter `batchNum`: the closed form of
`(evalBatches ori b batchNum cache ms bs).1` (the cache and meters do not
influence which events occur). -/
def evalTraceFrom (ori : Option (ℕ → ℕ)) : ℕ → ℕ → List EvalBatch → List EvalEvent
  | _, _, [] => []
  | b, batchNum, bt :: rest =>
    let visPart : List EvalEvent × ℕ :=
      match ori with
      | some f => if 100 ≤ bt.n then (visEvents f bt b batchNum, batchNum + 1) else ([], batchNum)
      | none => ([], batchNum)
    [.cacheCleared b, .forwardDone b (bt.writes.map fun nm => (nm, b))] ++ visPart.1 ++
    [.meterLoss bt.lossv, .meterAcc1 bt.acc1 bt.n, .meterAcc5 bt.acc5 bt.n] ++
    evalTraceFrom ori (b + 1) visPart.2 rest

/-- The meter update `evaluate` performs for one batch: loss with unit
weight, both accuracies weighted by the batch size. -/
def evalMeterStep (ms : EvalMeters) (bt : EvalBatch) : EvalMeters :=
  ⟨ms.loss.update bt.lossv 1, ms.acc1.update bt.acc1 bt.n, ms.acc5.update bt.acc5 bt.n⟩

/-- `attn_weight.mean(axis=1)` on the windowed attention tensor of shape
`(B*P, H, W, C)` (line 150 of `engine.py`): average over the head axis. -/
def attn_mean_heads (H : ℕ) (t : ℕ → ℕ → ℕ → ℕ → ℚ) : ℕ → ℕ → ℕ → ℚ :=
  fun i w c => (∑ h ∈ Finset.range H, t i h w c) / H

/-- `attn_weight.reshape(batch_size, r_weight.shape[1] * win_size, -1)`
(line 151 of `engine.py`): the row-major reshape of a `(B*P, W, C)` tensor
to `(B, P*W, C)`, where `P` is the routing-weight tensor's second dimension
and `W` the window size; element `(b, j, c)` comes from flat position
`b*P*W + j` of the leading two axes. -/
def attn_reshape (P W : ℕ) (t : ℕ → ℕ → ℕ → ℚ) : ℕ → ℕ → ℕ → ℚ :=
  fun b j c => t (b * P + j / W) (j % W) c

/-- `attn_weight.mean(axis=2)` on the reshaped `(B, P*W, C)` tensor
(line 152 of `engine.py`): average over the remaining axis. -/
def attn_mean_tail (C : ℕ) (t : ℕ → ℕ → ℕ → ℚ) : ℕ → ℕ → ℚ :=
  fun b j => (∑ c ∈ Finset.range C, t b j c) / C

/-- The full attention-weight reduction of lines 149-152 of `engine.py`:
mean over heads, reshape to `(B, P*W, C)`, mean over the remaining axis. -/
def processAttnWeight (P H W C : ℕ) (t : ℕ → ℕ → ℕ → ℕ → ℚ) : ℕ → ℕ → ℚ :=
  attn_mean_tail C (attn_reshape P W (attn_mean_heads H t))

/-- `np.repeat(a, k, axis=0)`: each element repeated `k` times in place. -/
def np_repeat {α : Type} (k : ℕ) (l : List α) : List α :=
  l.flatMap (List.replicate k)

/-- `attention_map.reshape(length, length)` with
`length = int(math.sqrt(attention_map.shape[0]))` (lines 165-166 of
`engine.py`): the per-sample attention vector laid out row-major as a square
grid whose side is the integer square root of the vector length. -/
def attnReshapeSquare (v : List ℚ) : List (List ℚ) :=
  (List.range (Nat.sqrt v.length)).map fun r =>
    (List.range (Nat.sqrt v.length)).map fun c => v.getD (r * Nat.sqrt v.length + c) 0

/-- Lines 166-168 of `engine.py`: the square grid upsampled 3× along both
axes via `np.repeat(·, 3, axis=0)` and `np.repeat(·, 3, axis=1)`. -/
def attnUpsample3 (v : List ℚ) : List (List ℚ) :=
  (np_repeat 3 (attnReshapeSquare v)).map (np_repeat 3)

/-! ### Lemmas about the training driver -/

theorem trainStepPre_idx (cfg : TrainCfg) (i : ℕ) :
    ∀ e ∈ trainStepPre cfg i, e.idx = i := by
  intro e he
  cases hM : cfg.hasMixup <;> simp [trainStepPre, hM] at he
  · rcases he with rfl | rfl <;> rfl
  · rcases he with rfl | rfl | rfl <;> rfl

theorem trainStepPost_idx (cfg : TrainCfg) (nb i : ℕ) (v lr' : ℚ) :
    ∀ e ∈ trainStepPost cfg nb i v lr', e.idx = i := by
  intro e he
  cases hE : cfg.hasEma <;> cases hL : cfg.hasLog <;>
    simp [trainStepPost, hE, hL] at he
  · rcases he with rfl | rfl | rfl | rfl | rfl <;> rfl
  · rcases he with rfl | rfl | rfl | rfl | rfl | rfl | rfl <;> rfl
  · rcases he with rfl | rfl | rfl | rfl | rfl | rfl <;> rfl
  · rcases he with rfl | rfl | rfl | rfl | rfl | rfl | rfl | rfl <;> rfl

theorem trainTraceFrom_idx_ge (cfg : TrainCfg) (nb : ℕ) :
    ∀ bs i lr, ∀ e ∈ trainTraceFrom cfg nb i lr bs, i ≤ e.idx := by
  intro bs
  induction bs with
  | nil => intro i lr e he; simp [trainTraceFrom] at he
  | cons l rest ih =>
    intro i lr e he
    simp only [trainTraceFrom, List.append_assoc, List.mem_append] at he
    rcases he with h | h | h
    · exact (trainStepPre_idx cfg i e h).ge
    · exact (trainStepPost_idx cfg nb i l.val (cfg.stepLr i lr) e h).ge
    · exact le_trans (Nat.le_succ i) (ih (i + 1) (cfg.stepLr i lr) e h)

theorem trainBatches_finished (cfg : TrainCfg) (nb : ℕ) :
    ∀ bs : List LossVal, ∀ i lr ms, (∀ l ∈ bs, l.isFinite = true) →
      ∃ st, trainBatches cfg nb i lr ms bs = .finished (trainTraceFrom cfg nb i lr bs) st := by
  intro bs
  induction bs with
  | nil => intro i lr ms _; exact ⟨_, rfl⟩
  | cons l rest ih =>
    intro i lr ms h
    have hl : l.isFinite = true := h l (List.mem_cons_self l rest)
    obtain ⟨st, hst⟩ := ih (i + 1) (cfg.stepLr i lr)
      ⟨ms.loss.update l.val 1, ms.lr.update (cfg.stepLr i lr) 1⟩
      (fun x hx => h x (List.mem_cons_of_mem l hx))
    refine ⟨st, ?_⟩
    simp only [trainBatches, hl, if_true, hst, trainTraceFrom, List.append_assoc]

theorem trainBatches_exit_code (cfg : TrainCfg) (nb : ℕ) :
    ∀ bs : List LossVal, ∀ i lr ms c tr,
      trainBatches cfg nb i lr ms bs = .exited c tr → c = 1 := by
  intro bs
  induction bs with
  | nil => intro i lr ms c tr h; simp [trainBatches] at h
  | cons l rest ih =>
    intro i lr ms c tr h
    by_cases hl : l.isFinite = true
    · simp only [trainBatches, hl, if_true] at h
      rcases hrec : trainBatches cfg nb (i + 1) (cfg.stepLr i lr)
          ⟨ms.loss.update l.val 1, ms.lr.update (cfg.stepLr i lr) 1⟩ rest with
        _ | ⟨c', tr'⟩
      · rw [hrec] at h; simp at h
      · rw [hrec] at h
        simp only [TrainResult.exited.injEq] at h
        exact h.1 ▸ ih (i + 1) (cfg.stepLr i lr) _ c' tr' hrec
    · rw [Bool.not_eq_true] at hl
      simp only [trainBatches, hl, Bool.false_eq_true, if_false,
        TrainResult.exited.injEq] at h
      exact h.1.symm

theorem optStep_not_mem_pre (cfg : TrainCfg) (i j : ℕ) :
    TrainEvent.optStep j ∉ trainStepPre cfg i := by
  intro h
  cases hM : cfg.hasMixup <;> simp [trainStepPre, hM] at h

theorem trainBatches_exit (cfg : TrainCfg) (nb : ℕ) :
    ∀ bs : List LossVal, ∀ i lr ms k, ∀ hk : k < bs.length,
      (∀ j (hj : j < k), (bs.get ⟨j, hj.trans hk⟩).isFinite = true) →
      (bs.get ⟨k, hk⟩).isFinite = false →
      ∃ tr, trainBatches cfg nb i lr ms bs = .exited 1 tr ∧
        TrainEvent.printDiag (i + k) ∈ tr ∧ TrainEvent.optStep (i + k) ∉ tr ∧
        ∀ e ∈ tr, e.idx ≤ i + k := by
  intro bs
  induction bs with
  | nil => intro i lr ms k hk; exact absurd hk (Nat.not_lt_zero k)
  | cons l rest ih =>
    intro i lr ms k hk hpre hbad
    match k with
    | 0 =>
      have hl : l.isFinite = false := hbad
      refine ⟨trainStepPre cfg i ++ [TrainEvent.printDiag i], ?_, ?_, ?_, ?_⟩
      · simp only [trainBatches, hl, Bool.false_eq_true, if_false]
      · simp
      · intro h
        rw [Nat.add_zero] at h
        rcases List.mem_append.1 h with h | h
        · exact optStep_not_mem_pre cfg i i h
        · simp at h
      · intro e he
        rcases List.mem_append.1 he with h | h
        · exact (trainStepPre_idx cfg i e h).le.trans (Nat.le_add_right i 0)
        · simp at h; subst h; simp [TrainEvent.idx]
    | k' + 1 =>
      have hl : l.isFinite = true := hpre 0 (Nat.succ_pos k')
      have hk' : k' < rest.length := Nat.lt_of_succ_lt_succ hk
      obtain ⟨tr, htr, hmem, hnot, htags⟩ :=
        ih (i + 1) (cfg.stepLr i lr) ⟨ms.loss.update l.val 1, ms.lr.update (cfg.stepLr i lr) 1⟩
          k' hk' (fun j hj => hpre (j + 1) (Nat.succ_lt_succ hj)) hbad
      have harith : i + 1 + k' = i + (k' + 1) := by omega
      refine ⟨trainStepPre cfg i ++ trainStepPost cfg nb i l.val (cfg.stepLr i lr) ++ tr,
        ?_, ?_, ?_, ?_⟩
      · simp only [trainBatches, hl, if_true, htr]
      · rw [← harith]; exact List.mem_append.2 (Or.inr hmem)
      · intro h
        rcases List.mem_append.1 h with h | h
        · rcases List.mem_append.1 h with h | h
          · exact optStep_not_mem_pre cfg i _ h
          · have := trainStepPost_idx cfg nb i l.val (cfg.stepLr i lr) _ h
            simp [TrainEvent.idx] at this
        · rw [← harith] at h; exact hnot h
      · intro e he
        rcases List.mem_append.1 he with h | h
        · rcases List.mem_append.1 h with h | h
          · have := trainStepPre_idx cfg i e h; omega
          · have := trainStepPost_idx cfg nb i l.val (cfg.stepLr i lr) e h; omega
        · have := htags e h; omega

/-- Claim C1: in the training driver, a batch with a non-finite scalar loss
(preceded by finite-loss batches) makes the process print a diagnostic and
terminate with exit status 1 before that batch's optimization step and
before any event of a later batch; any exit has status 1; and when every
batch's loss is finite the epoch finishes without terminating. -/
theorem stability_guard (cfg : TrainCfg) (bs : List LossVal) :
    ((∀ l ∈ bs, l.isFinite = true) →
      ∃ tr st, train_one_epoch cfg bs = .finished tr st) ∧
    (∀ c tr, train_one_epoch cfg bs = .exited c tr → c = 1) ∧
    (∀ k (hk : k < bs.length),
      (∀ j (hj : j < k), (bs.get ⟨j, hj.trans hk⟩).isFinite = true) →
      (bs.get ⟨k, hk⟩).isFinite = false →
      ∃ tr, train_one_epoch cfg bs = .exited 1 tr ∧
        TrainEvent.printDiag k ∈ tr ∧ TrainEvent.optStep k ∉ tr ∧
        ∀ e ∈ tr, e.idx ≤ k) := by
  refine ⟨?_, ?_, ?_⟩
  · intro h
    obtain ⟨st, hst⟩ := trainBatches_finished cfg bs.length bs 0 cfg.lr0 initTrainMeters h
    exact ⟨_, st, hst⟩
  · intro c tr h
    exact trainBatches_exit_code cfg bs.length bs 0 cfg.lr0 initTrainMeters c tr h
  · intro k hk hpre hbad
    obtain ⟨tr, htr, hmem, hnot, htags⟩ :=
      trainBatches_exit cfg bs.length bs 0 cfg.lr0 initTrainMeters k hk hpre hbad
    rw [Nat.zero_add] at hmem hnot
    refine ⟨tr, htr, hmem, hnot, fun e he => ?_⟩
    have := htags e he
    omega

/-- Witness for `stability_guard`: a run whose second batch has a non-finite
loss exits with status 1 without performing that batch's optimization step. -/
theorem stability_guard_witness :
    (([LossVal.mk 1 true, LossVal.mk 0 false].get ⟨1, by decide⟩).isFinite = false) ∧
    ∃ tr, train_one_epoch ⟨0, false, false, false, 0, fun _ a => a, fun v => v⟩
        [LossVal.mk 1 true, LossVal.mk 0 false] = .exited 1 tr ∧
      TrainEvent.printDiag 1 ∈ tr ∧ TrainEvent.optStep 1 ∉ tr ∧
      ∀ e ∈ tr, e.idx ≤ 1 :=
  ⟨by decide,
   (stability_guard ⟨0, false, false, false, 0, fun _ a => a, fun v => v⟩
      [LossVal.mk 1 true, LossVal.mk 0 false]).2.2 1 (by decide)
      (fun j hj => by
        have h0 : j = 0 := by omega
        subst h0
        rfl)
      (by rfl)⟩

theorem trainBatches_trace_cons (cfg : TrainCfg) (nb i : ℕ) (lr : ℚ) (ms : TrainMeters)
    (l : LossVal) (rest : List LossVal) :
    (trainBatches cfg nb i lr ms (l :: rest)).trace =
      if l.isFinite then
        trainStepPre cfg i ++ trainStepPost cfg nb i l.val (cfg.stepLr i lr) ++
          (trainBatches cfg nb (i + 1) (cfg.stepLr i lr)
            ⟨ms.loss.update l.val 1, ms.lr.update (cfg.stepLr i lr) 1⟩ rest).trace
      else trainStepPre cfg i ++ [.printDiag i] := by
  by_cases hl : l.isFinite = true
  · cases hrec : trainBatches cfg nb (i + 1) (cfg.stepLr i lr)
        ⟨ms.loss.update l.val 1, ms.lr.update (cfg.stepLr i lr) 1⟩ rest <;>
      simp [trainBatches, hl, hrec, TrainResult.trace]
  · rw [Bool.not_eq_true] at hl
    simp [trainBatches, hl, TrainResult.trace]

theorem sublist_opt_sync_post (cfg : TrainCfg) (nb i : ℕ) (v lr' : ℚ) :
    List.Sublist [TrainEvent.optStep i, TrainEvent.sync i] (trainStepPost cfg nb i v lr') := by
  unfold trainStepPost
  have h1 : List.Sublist [TrainEvent.optStep i, TrainEvent.sync i]
      [TrainEvent.zeroGrad i, TrainEvent.optStep i, TrainEvent.sync i] :=
    (List.Sublist.refl _).cons _
  exact ((h1.trans (List.sublist_append_left _ _)).trans
    (List.sublist_append_left _ _)).trans (List.sublist_append_left _ _)

theorem sublist_opt_sync_ema_post (cfg : TrainCfg) (nb i : ℕ) (v lr' : ℚ)
    (hE : cfg.hasEma = true) :
    List.Sublist [TrainEvent.optStep i, TrainEvent.sync i, TrainEvent.emaUpdate i]
      (trainStepPost cfg nb i v lr') := by
  unfold trainStepPost
  have he : (if cfg.hasEma then [TrainEvent.emaUpdate i] else []) = [TrainEvent.emaUpdate i] := by
    simp [hE]
  rw [he]
  have h1 : List.Sublist [TrainEvent.optStep i, TrainEvent.sync i, TrainEvent.emaUpdate i]
      ([TrainEvent.zeroGrad i, TrainEvent.optStep i, TrainEvent.sync i] ++
        [TrainEvent.emaUpdate i]) :=
    (List.Sublist.refl [TrainEvent.optStep i, TrainEvent.sync i, TrainEvent.emaUpdate i]).cons _
  exact (h1.trans (List.sublist_append_left _ _)).trans (List.sublist_append_left _ _)

theorem emaUpdate_not_mem_trace (cfg : TrainCfg) (nb : ℕ) (hE : cfg.hasEma = false) :
    ∀ bs : List LossVal, ∀ i lr ms j,
      TrainEvent.emaUpdate j ∉ (trainBatches cfg nb i lr ms bs).trace := by
  intro bs
  induction bs with
  | nil => intro i lr ms j h; simp [trainBatches, TrainResult.trace] at h
  | cons l rest ih =>
    intro i lr ms j h
    rw [trainBatches_trace_cons] at h
    by_cases hl : l.isFinite = true
    · rw [if_pos hl] at h
      rcases List.mem_append.1 h with h | h
      · rcases List.mem_append.1 h with h | h
        · cases hM : cfg.hasMixup <;> simp [trainStepPre, hM] at h
        · cases hL : cfg.hasLog <;> simp [trainStepPost, hE, hL] at h
      · exact ih (i + 1) (cfg.stepLr i lr) _ j h
    · rw [Bool.not_eq_true] at hl
      rw [if_neg (by simp [hl])] at h
      rcases List.mem_append.1 h with h | h
      · cases hM : cfg.hasMixup <;> simp [trainStepPre, hM] at h
      · simp at h

theorem trainBatches_sync_aux (cfg : TrainCfg) (nb : ℕ) :
    ∀ bs : List LossVal, ∀ i lr ms j,
      TrainEvent.optStep j ∈ (trainBatches cfg nb i lr ms bs).trace →
      (List.Sublist [TrainEvent.optStep j, TrainEvent.sync j]
         (trainBatches cfg nb i lr ms bs).trace ∧
       (cfg.hasEma = true →
         List.Sublist [TrainEvent.optStep j, TrainEvent.sync j, TrainEvent.emaUpdate j]
           (trainBatches cfg nb i lr ms bs).trace)) := by
  intro bs
  induction bs with
  | nil => intro i lr ms j h; simp [trainBatches, TrainResult.trace] at h
  | cons l rest ih =>
    intro i lr ms j h
    rw [trainBatches_trace_cons] at h ⊢
    by_cases hl : l.isFinite = true
    · rw [if_pos hl] at h ⊢
      by_cases hj : j = i
      · subst hj
        constructor
        · exact ((sublist_opt_sync_post cfg nb j l.val (cfg.stepLr j lr)).trans
            (List.sublist_append_right _ _)).trans (List.sublist_append_left _ _)
        · intro hE
          exact ((sublist_opt_sync_ema_post cfg nb j l.val (cfg.stepLr j lr) hE).trans
            (List.sublist_append_right _ _)).trans (List.sublist_append_left _ _)
      · have hmem : TrainEvent.optStep j ∈ (trainBatches cfg nb (i + 1) (cfg.stepLr i lr)
            ⟨ms.loss.update l.val 1, ms.lr.update (cfg.stepLr i lr) 1⟩ rest).trace := by
          rcases List.mem_append.1 h with h | h
          · rcases List.mem_append.1 h with h | h
            · exact absurd h (optStep_not_mem_pre cfg i j)
            · exact absurd (trainStepPost_idx cfg nb i l.val (cfg.stepLr i lr) _ h) hj
          · exact h
        obtain ⟨h1, h2⟩ := ih (i + 1) (cfg.stepLr i lr) _ j hmem
        exact ⟨h1.trans (List.sublist_append_right _ _),
          fun hE => (h2 hE).trans (List.sublist_append_right _ _)⟩
    · rw [Bool.not_eq_true] at hl
      rw [if_neg (by simp [hl])] at h
      rcases List.mem_append.1 h with h | h
      · exact absurd h (optStep_not_mem_pre cfg i j)
      · simp at h

/-- Claim C6: in every training step that performs the scaled optimization
step, a device synchronization follows it before the EMA shadow-model
update; the EMA update occurs exactly when an EMA model is configured, and
the synchronization occurs on every step regardless. -/
theorem sync_before_ema (cfg : TrainCfg) (bs : List LossVal) (j : ℕ)
    (h : TrainEvent.optStep j ∈ (train_one_epoch cfg bs).trace) :
    List.Sublist [TrainEvent.optStep j, TrainEvent.sync j] (train_one_epoch cfg bs).trace ∧
    (cfg.hasEma = true →
      List.Sublist [TrainEvent.optStep j, TrainEvent.sync j, TrainEvent.emaUpdate j]
        (train_one_epoch cfg bs).trace) ∧
    (cfg.hasEma = false →
      ∀ k, TrainEvent.emaUpdate k ∉ (train_one_epoch cfg bs).trace) := by
  obtain ⟨h1, h2⟩ :=
    trainBatches_sync_aux cfg bs.length bs 0 cfg.lr0 initTrainMeters j h
  exact ⟨h1, h2, fun hE k =>
    emaUpdate_not_mem_trace cfg bs.length hE bs 0 cfg.lr0 initTrainMeters k⟩

/-- Witness for `sync_before_ema`: in a one-batch run without an EMA model,
the optimization step is followed by a synchronization and no EMA update
occurs. -/
theorem sync_before_ema_witness :
    TrainEvent.optStep 0 ∈
      (train_one_epoch ⟨0, false, false, false, 0, fun _ a => a, fun v => v⟩
        [LossVal.mk 1 true]).trace ∧
    (List.Sublist [TrainEvent.optStep 0, TrainEvent.sync 0]
      (train_one_epoch ⟨0, false, false, false, 0, fun _ a => a, fun v => v⟩
        [LossVal.mk 1 true]).trace ∧
    (TrainCfg.hasEma ⟨0, false, false, false, 0, fun _ a => a, fun v => v⟩ = true →
      List.Sublist [TrainEvent.optStep 0, TrainEvent.sync 0, TrainEvent.emaUpdate 0]
        (train_one_epoch ⟨0, false, false, false, 0, fun _ a => a, fun v => v⟩
          [LossVal.mk 1 true]).trace) ∧
    (TrainCfg.hasEma ⟨0, false, false, false, 0, fun _ a => a, fun v => v⟩ = false →
      ∀ k, TrainEvent.emaUpdate k ∉
        (train_one_epoch ⟨0, false, false, false, 0, fun _ a => a, fun v => v⟩
          [LossVal.mk 1 true]).trace)) :=
  ⟨by decide,
   sync_before_ema ⟨0, false, false, false, 0, fun _ a => a, fun v => v⟩
     [LossVal.mk 1 true] 0 (by decide)⟩

theorem meterLr_not_mem_pre (cfg : TrainCfg) (i j : ℕ) (v : ℚ) :
    TrainEvent.meterLr j v ∉ trainStepPre cfg i := by
  intro h
  cases hM : cfg.hasMixup <;> simp [trainStepPre, hM] at h

theorem meterLr_mem_post (cfg : TrainCfg) (nb i : ℕ) (v₀ lr' : ℚ) (j : ℕ) (v : ℚ) :
    (TrainEvent.meterLr j v ∈ trainStepPost cfg nb i v₀ lr') ↔ (j = i ∧ v = lr') := by
  cases hE : cfg.hasEma <;> cases hL : cfg.hasLog <;>
    simp [trainStepPost, hE, hL]

theorem logScalar_not_mem_pre (cfg : TrainCfg) (i j : ℕ) (tg : String) (v : ℚ) (x : ℤ) :
    TrainEvent.logScalar j tg v x ∉ trainStepPre cfg i := by
  intro h
  cases hM : cfg.hasMixup <;> simp [trainStepPre, hM] at h

theorem logLr_mem_post (cfg : TrainCfg) (nb i : ℕ) (v₀ lr' : ℚ) (j : ℕ) (v : ℚ) (x : ℤ)
    (hL : cfg.hasLog = true) :
    (TrainEvent.logScalar j "lr" v x ∈ trainStepPost cfg nb i v₀ lr') ↔
      (j = i ∧ v = lr' ∧ x = epoch_1000x i nb cfg.epoch) := by
  cases hE : cfg.hasEma <;>
    simp [trainStepPost, hE, hL, (show ("lr" : String) ≠ "loss" from by decide)]

theorem logLoss_mem_post (cfg : TrainCfg) (nb i : ℕ) (v₀ lr' : ℚ) (j : ℕ) (v : ℚ) (x : ℤ)
    (hL : cfg.hasLog = true) :
    (TrainEvent.logScalar j "loss" v x ∈ trainStepPost cfg nb i v₀ lr') ↔
      (j = i ∧ v = cfg.allReduceMean v₀ ∧ x = epoch_1000x i nb cfg.epoch) := by
  cases hE : cfg.hasEma <;>
    simp [trainStepPost, hE, hL, (show ("loss" : String) ≠ "lr" from by decide)]

theorem meterLr_iff (cfg : TrainCfg) (nb : ℕ) :
    ∀ bs : List LossVal, ∀ i lr k, k < bs.length → ∀ v,
      (TrainEvent.meterLr (i + k) v ∈ trainTraceFrom cfg nb i lr bs ↔
        v = lrThread cfg i lr k) := by
  intro bs
  induction bs with
  | nil => intro i lr k hk; exact absurd hk (Nat.not_lt_zero k)
  | cons l rest ih =>
    intro i lr k hk v
    simp only [trainTraceFrom, List.append_assoc, List.mem_append]
    match k with
    | 0 =>
      constructor
      · rintro (h | h | h)
        · exact absurd h (meterLr_not_mem_pre cfg i (i + 0) v)
        · exact ((meterLr_mem_post cfg nb i l.val (cfg.stepLr i lr) (i + 0) v).1 h).2
        · have := trainTraceFrom_idx_ge cfg nb rest (i + 1) (cfg.stepLr i lr) _ h
          simp [TrainEvent.idx] at this
      · intro hv
        exact Or.inr (Or.inl
          ((meterLr_mem_post cfg nb i l.val (cfg.stepLr i lr) (i + 0) v).2 ⟨rfl, hv⟩))
    | k' + 1 =>
      have hi : i + (k' + 1) = (i + 1) + k' := by omega
      have hne : i + (k' + 1) ≠ i := by omega
      constructor
      · rintro (h | h | h)
        · exact absurd h (meterLr_not_mem_pre cfg i (i + (k' + 1)) v)
        · exact absurd ((meterLr_mem_post cfg nb i l.val (cfg.stepLr i lr) _ v).1 h).1 hne
        · rw [hi] at h
          exact (ih (i + 1) (cfg.stepLr i lr) k' (Nat.lt_of_succ_lt_succ hk) v).1 h
      · intro hv
        refine Or.inr (Or.inr ?_)
        rw [hi]
        exact (ih (i + 1) (cfg.stepLr i lr) k' (Nat.lt_of_succ_lt_succ hk) v).2 hv

theorem logLr_iff (cfg : TrainCfg) (nb : ℕ) (hL : cfg.hasLog = true) :
    ∀ bs : List LossVal, ∀ i lr k, k < bs.length → ∀ v x,
      (TrainEvent.logScalar (i + k) "lr" v x ∈ trainTraceFrom cfg nb i lr bs ↔
        (v = lrThread cfg i lr k ∧ x = epoch_1000x (i + k) nb cfg.epoch)) := by
  intro bs
  induction bs with
  | nil => intro i lr k hk; exact absurd hk (Nat.not_lt_zero k)
  | cons l rest ih =>
    intro i lr k hk v x
    simp only [trainTraceFrom, List.append_assoc, List.mem_append]
    match k with
    | 0 =>
      constructor
      · rintro (h | h | h)
        · exact absurd h (logScalar_not_mem_pre cfg i (i + 0) "lr" v x)
        · have := (logLr_mem_post cfg nb i l.val (cfg.stepLr i lr) (i + 0) v x hL).1 h
          exact ⟨this.2.1, this.1 ▸ this.2.2⟩
        · have := trainTraceFrom_idx_ge cfg nb rest (i + 1) (cfg.stepLr i lr) _ h
          simp [TrainEvent.idx] at this
      · rintro ⟨hv, hx⟩
        refine Or.inr (Or.inl
          ((logLr_mem_post cfg nb i l.val (cfg.stepLr i lr) (i + 0) v x hL).2 ⟨rfl, hv, ?_⟩))
        simpa using hx
    | k' + 1 =>
      have hi : i + (k' + 1) = (i + 1) + k' := by omega
      have hne : i + (k' + 1) ≠ i := by omega
      constructor
      · rintro (h | h | h)
        · exact absurd h (logScalar_not_mem_pre cfg i (i + (k' + 1)) "lr" v x)
        · exact absurd
            ((logLr_mem_post cfg nb i l.val (cfg.stepLr i lr) _ v x hL).1 h).1 hne
        · rw [hi] at h
          have := (ih (i + 1) (cfg.stepLr i lr) k' (Nat.lt_of_succ_lt_succ hk) v x).1 h
          exact ⟨this.1, by rw [hi]; exact this.2⟩
      · rintro ⟨hv, hx⟩
        refine Or.inr (Or.inr ?_)
        rw [hi]
        exact (ih (i + 1) (cfg.stepLr i lr) k' (Nat.lt_of_succ_lt_succ hk) v x).2
          ⟨hv, by rw [← hi]; exact hx⟩

theorem logLoss_iff (cfg : TrainCfg) (nb : ℕ) (hL : cfg.hasLog = true) :
    ∀ bs : List LossVal, ∀ i lr k, ∀ hk : k < bs.length, ∀ v x,
      (TrainEvent.logScalar (i + k) "loss" v x ∈ trainTraceFrom cfg nb i lr bs ↔
        (v = cfg.allReduceMean (bs.get ⟨k, hk⟩).val ∧
          x = epoch_1000x (i + k) nb cfg.epoch)) := by
  intro bs
  induction bs with
  | nil => intro i lr k hk; exact absurd hk (Nat.not_lt_zero k)
  | cons l rest ih =>
    intro i lr k hk v x
    simp only [trainTraceFrom, List.append_assoc, List.mem_append]
    match k with
    | 0 =>
      constructor
      · rintro (h | h | h)
        · exact absurd h (logScalar_not_mem_pre cfg i (i + 0) "loss" v x)
        · have := (logLoss_mem_post cfg nb i l.val (cfg.stepLr i lr) (i + 0) v x hL).1 h
          exact ⟨this.2.1, this.1 ▸ this.2.2⟩
        · have := trainTraceFrom_idx_ge cfg nb rest (i + 1) (cfg.stepLr i lr) _ h
          simp [TrainEvent.idx] at this
      · rintro ⟨hv, hx⟩
        refine Or.inr (Or.inl
          ((logLoss_mem_post cfg nb i l.val (cfg.stepLr i lr) (i + 0) v x hL).2
            ⟨rfl, hv, ?_⟩))
        simpa using hx
    | k' + 1 =>
      have hi : i + (k' + 1) = (i + 1) + k' := by omega
      have hne : i + (k' + 1) ≠ i := by omega
      constructor
      · rintro (h | h | h)
        · exact absurd h (logScalar_not_mem_pre cfg i (i + (k' + 1)) "loss" v x)
        · exact absurd
            ((logLoss_mem_post cfg nb i l.val (cfg.stepLr i lr) _ v x hL).1 h).1 hne
        · rw [hi] at h
          have := (ih (i + 1) (cfg.stepLr i lr) k' (Nat.lt_of_succ_lt_succ hk) v x).1 h
          exact ⟨this.1, by rw [hi]; exact this.2⟩
      · rintro ⟨hv, hx⟩
        refine Or.inr (Or.inr ?_)
        rw [hi]
        exact (ih (i + 1) (cfg.stepLr i lr) k' (Nat.lt_of_succ_lt_succ hk) v x).2
          ⟨hv, by rw [← hi]; exact hx⟩

theorem logScalar_not_mem_traceFrom (cfg : TrainCfg) (nb : ℕ) (hL : cfg.hasLog = false) :
    ∀ bs : List LossVal, ∀ i lr j tg v x,
      TrainEvent.logScalar j tg v x ∉ trainTraceFrom cfg nb i lr bs := by
  intro bs
  induction bs with
  | nil => intro i lr j tg v x h; simp [trainTraceFrom] at h
  | cons l rest ih =>
    intro i lr j tg v x h
    simp only [trainTraceFrom, List.append_assoc, List.mem_append] at h
    rcases h with h | h | h
    · exact logScalar_not_mem_pre cfg i j tg v x h
    · cases hE : cfg.hasEma <;> simp [trainStepPost, hE, hL] at h
    · exact ih (i + 1) (cfg.stepLr i lr) j tg v x h

/-- Claim C9: in a finished training epoch, the learning rate recorded into
the metric aggregator at step `k` is exactly the optimizer's first-group
learning rate after step `k`'s optimization update (`lrAfter`), and any
learning rate passed to the structured-log sink at step `k` equals the same
value. -/
theorem lr_recorded (cfg : TrainCfg) (bs : List LossVal)
    (h : ∀ l ∈ bs, l.isFinite = true) :
    ∃ tr st, train_one_epoch cfg bs = .finished tr st ∧
      ∀ k, k < bs.length → ∀ v,
        ((TrainEvent.meterLr k v ∈ tr ↔ v = lrAfter cfg k) ∧
         (∀ x, TrainEvent.logScalar k "lr" v x ∈ tr → v = lrAfter cfg k)) := by
  obtain ⟨st, hst⟩ := trainBatches_finished cfg bs.length bs 0 cfg.lr0 initTrainMeters h
  refine ⟨_, st, hst, fun k hk v => ⟨?_, ?_⟩⟩
  · have := meterLr_iff cfg bs.length bs 0 cfg.lr0 k hk v
    simpa [lrAfter] using this
  · intro x hx
    by_cases hL : cfg.hasLog = true
    · have := (logLr_iff cfg bs.length hL bs 0 cfg.lr0 k hk v x).1 (by simpa using hx)
      exact this.1
    · rw [Bool.not_eq_true] at hL
      exact absurd hx (logScalar_not_mem_traceFrom cfg bs.length hL bs 0 cfg.lr0 k "lr" v x)

/-- Witness for `lr_recorded`: a one-batch run with a learning-rate-changing
optimization step records the post-step learning rate. -/
theorem lr_recorded_witness :
    (∀ l ∈ [LossVal.mk 1 true], l.isFinite = true) ∧
    ∃ tr st,
      train_one_epoch ⟨0, false, false, false, 5, fun _ a => a + 1, fun v => v⟩
        [LossVal.mk 1 true] = .finished tr st ∧
      ∀ k, k < List.length [LossVal.mk 1 true] → ∀ v : ℚ,
        ((TrainEvent.meterLr k v ∈ tr ↔
            v = lrAfter ⟨0, false, false, false, 5, fun _ a => a + 1, fun v => v⟩ k) ∧
         (∀ x, TrainEvent.logScalar k "lr" v x ∈ tr →
            v = lrAfter ⟨0, false, false, false, 5, fun _ a => a + 1, fun v => v⟩ k)) :=
  ⟨by decide,
   lr_recorded ⟨0, false, false, false, 5, fun _ a => a + 1, fun v => v⟩
     [LossVal.mk 1 true] (by decide)⟩

/-- Claim C8: with a structured-log sink configured, each step `k` of a
finished epoch logs the reduced loss and the learning rate at x-axis
coordinate `epoch_1000x k num_batches epoch`; that coordinate is monotone
non-decreasing in the step index for a fixed batch count, and strictly
increasing in the epoch index for a fixed step. -/
theorem log_coordinates (cfg : TrainCfg) (bs : List LossVal)
    (hfin : ∀ l ∈ bs, l.isFinite = true) (hL : cfg.hasLog = true) :
    (∃ tr st, train_one_epoch cfg bs = .finished tr st ∧
      ∀ k, ∀ hk : k < bs.length,
        TrainEvent.logScalar k "loss" (cfg.allReduceMean (bs.get ⟨k, hk⟩).val)
          (epoch_1000x k bs.length cfg.epoch) ∈ tr ∧
        TrainEvent.logScalar k "lr" (lrAfter cfg k)
          (epoch_1000x k bs.length cfg.epoch) ∈ tr) ∧
    (∀ nb e i j, i ≤ j → epoch_1000x i nb e ≤ epoch_1000x j nb e) ∧
    (∀ nb i e e', e < e' → epoch_1000x i nb e < epoch_1000x i nb e') := by
  refine ⟨?_, ?_, ?_⟩
  · obtain ⟨st, hst⟩ := trainBatches_finished cfg bs.length bs 0 cfg.lr0 initTrainMeters hfin
    refine ⟨_, st, hst, fun k hk => ⟨?_, ?_⟩⟩
    · have := (logLoss_iff cfg bs.length hL bs 0 cfg.lr0 k hk
        (cfg.allReduceMean (bs.get ⟨k, hk⟩).val)
        (epoch_1000x k bs.length cfg.epoch)).2 ⟨rfl, by rw [Nat.zero_add]⟩
      simpa using this
    · have := (logLr_iff cfg bs.length hL bs 0 cfg.lr0 k hk
        (lrAfter cfg k) (epoch_1000x k bs.length cfg.epoch)).2 ⟨rfl, by rw [Nat.zero_add]⟩
      simpa using this
  · intro nb e i j hij
    unfold epoch_1000x
    apply Int.floor_le_floor
    rcases Nat.eq_zero_or_pos nb with h0 | h0
    · subst h0; simp
    · have hc : (0 : ℚ) < (nb : ℚ) := by exact_mod_cast h0
      have hdiv : (i : ℚ) / nb ≤ (j : ℚ) / nb :=
        (div_le_div_iff_of_pos_right hc).mpr (by exact_mod_cast hij)
      linarith
  · intro nb i e e' he
    unfold epoch_1000x
    have key : (((i : ℚ)) / (nb : ℚ) + (e' : ℚ)) * 1000 =
        ((i : ℚ) / (nb : ℚ) + (e : ℚ)) * 1000 + ((((e' - e : ℕ) * 1000 : ℤ)) : ℚ) := by
      push_cast [Nat.cast_sub he.le]
      ring
    rw [key, Int.floor_add_int]
    have h1 : (1000 : ℤ) ≤ ((e' - e : ℕ) : ℤ) * 1000 := by
      have h2 : (1 : ℤ) ≤ ((e' - e : ℕ) : ℤ) := by omega
      nlinarith
    linarith [h1]

/-- Witness for `log_coordinates`: concrete monotone and strictly increasing
log coordinates obtained from a one-batch logged run. -/
theorem log_coordinates_witness :
    (∀ l ∈ [LossVal.mk 1 true], l.isFinite = true) ∧
    (epoch_1000x 0 1 0 ≤ epoch_1000x 1 1 0 ∧ epoch_1000x 0 1 0 < epoch_1000x 0 1 1) :=
  ⟨by decide,
   ⟨(log_coordinates ⟨0, false, false, true, 0, fun _ a => a, fun v => v⟩
       [LossVal.mk 1 true] (by decide) rfl).2.1 1 0 0 1 (by decide),
    (log_coordinates ⟨0, false, false, true, 0, fun _ a => a, fun v => v⟩
       [LossVal.mk 1 true] (by decide) rfl).2.2 1 0 0 1 (by decide)⟩⟩

/-! ### Lemmas about the attention-map post-processing -/

theorem np_repeat_getD {α : Type} (l : List α) (d : α) :
    ∀ a : ℕ, a < 3 * l.length → (np_repeat 3 l).getD a d = l.getD (a / 3) d := by
  induction l with
  | nil => intro a ha; simp at ha
  | cons x xs ih =>
    intro a ha
    have hexp : np_repeat 3 (x :: xs) = x :: x :: x :: np_repeat 3 xs := by
      simp [np_repeat]
    rw [hexp]
    match a with
    | 0 => simp
    | 1 => simp
    | 2 => simp
    | n + 3 =>
      have hdiv : (n + 3) / 3 = n / 3 + 1 := by omega
      simp only [List.getD_cons_succ]
      rw [hdiv]
      simp only [List.getD_cons_succ]
      have hn : n < 3 * xs.length := by
        simp only [List.length_cons] at ha
        omega
      exact ih n hn

theorem getD_map_nil (f : List ℚ → List ℚ) (hf : f [] = []) (l : List (List ℚ)) (n : ℕ) :
    (l.map f).getD n [] = f (l.getD n []) := by
  rw [List.getD_eq_getElem?_getD, List.getElem?_map, List.getD_eq_getElem?_getD]
  cases l[n]? <;> simp [hf]

theorem attnReshapeSquare_length (v : List ℚ) :
    (attnReshapeSquare v).length = Nat.sqrt v.length := by
  simp [attnReshapeSquare]

theorem attnReshapeSquare_getD (v : List ℚ) (r : ℕ) (hr : r < Nat.sqrt v.length) :
    (attnReshapeSquare v).getD r [] =
      (List.range (Nat.sqrt v.length)).map fun c => v.getD (r * Nat.sqrt v.length + c) 0 := by
  unfold attnReshapeSquare
  rw [List.getD_eq_getElem?_getD, List.getElem?_map, List.getElem?_range hr]
  rfl

theorem range_map_getD (L : ℕ) (g : ℕ → ℚ) (c : ℕ) (hc : c < L) :
    ((List.range L).map g).getD c 0 = g c := by
  rw [List.getD_eq_getElem?_getD, List.getElem?_map, List.getElem?_range hc]
  rfl

/-- Claim C4: the attention-weight reduction averages over the head axis,
reshapes to `(batch, spatial × window, remaining)` with the routing-weight
second dimension `P` as spatial-position count, and averages over the
remaining axis — yielding the double mean of the entries at flat leading
index `b*P + j/W`, window position `j%W`; and the per-sample attention
vector is laid out as a square grid of side `Nat.sqrt (length)` and
upsampled 3× along both axes, so that display pixel `(a, a')` reads vector
entry `(a/3) * side + a'/3`. -/
theorem attn_processing (P H W C : ℕ) (t : ℕ → ℕ → ℕ → ℕ → ℚ) (b j : ℕ)
    (v : List ℚ) (a a' : ℕ)
    (ha : a < 3 * Nat.sqrt v.length) (ha' : a' < 3 * Nat.sqrt v.length) :
    processAttnWeight P H W C t b j =
      (∑ h ∈ Finset.range H, ∑ c ∈ Finset.range C, t (b * P + j / W) h (j % W) c) /
        ((H : ℚ) * (C : ℚ)) ∧
    ((attnUpsample3 v).getD a []).getD a' 0 =
      v.getD ((a / 3) * Nat.sqrt v.length + a' / 3) 0 := by
  constructor
  · simp only [processAttnWeight, attn_mean_tail, attn_reshape, attn_mean_heads]
    rw [← Finset.sum_div, div_div, Finset.sum_comm]
  · have hdiv : a / 3 < Nat.sqrt v.length := by omega
    have hdiv' : a' / 3 < Nat.sqrt v.length := by omega
    have h1 : (attnUpsample3 v).getD a [] =
        np_repeat 3 ((np_repeat 3 (attnReshapeSquare v)).getD a []) :=
      getD_map_nil (np_repeat 3) rfl _ a
    rw [h1, np_repeat_getD _ _ a (by rw [attnReshapeSquare_length]; exact ha),
      attnReshapeSquare_getD v (a / 3) hdiv,
      np_repeat_getD _ _ a' (by simp; exact ha'),
      range_map_getD _ _ _ hdiv']

/-- Witness for `attn_processing`: the reduction and upsampling formulas
evaluated at a concrete tensor and vector. -/
theorem attn_processing_witness :
    ((0 : ℕ) < 3 * Nat.sqrt ([(5 : ℚ)].length)) ∧
    (processAttnWeight 1 1 1 1 (fun _ _ _ _ => 1) 0 0 =
      (∑ h ∈ Finset.range 1, ∑ c ∈ Finset.range 1, (fun _ _ _ _ => (1 : ℚ)) (0 * 1 + 0 / 1) h (0 % 1) c) /
        ((1 : ℚ) * (1 : ℚ)) ∧
    ((attnUpsample3 [(5 : ℚ)]).getD 0 []).getD 0 0 =
      [(5 : ℚ)].getD ((0 / 3) * Nat.sqrt ([(5 : ℚ)].length) + 0 / 3) 0) :=
  ⟨by decide,
   attn_processing 1 1 1 1 (fun _ _ _ _ => 1) 0 0 [(5 : ℚ)] 0 0 (by decide) (by decide)⟩

/-! ### Lemmas about the evaluation driver -/

theorem evalBatches_fst (ori : Option (ℕ → ℕ)) :
    ∀ bs : List EvalBatch, ∀ b bn cache ms,
      (evalBatches ori b bn cache ms bs).1 = evalTraceFrom ori b bn bs := by
  intro bs
  induction bs with
  | nil => intro b bn cache ms; rfl
  | cons bt rest ih =>
    intro b bn cache ms
    cases ori with
    | none => simp [evalBatches, evalTraceFrom, ih]
    | some f =>
      by_cases hn : 100 ≤ bt.n <;> simp [evalBatches, evalTraceFrom, ih, hn]

theorem evalBatches_snd (ori : Option (ℕ → ℕ)) :
    ∀ bs : List EvalBatch, ∀ b bn cache ms,
      (evalBatches ori b bn cache ms bs).2 = bs.foldl evalMeterStep ms := by
  intro bs
  induction bs with
  | nil => intro b bn cache ms; rfl
  | cons bt rest ih =>
    intro b bn cache ms
    cases ori with
    | none => simp [evalBatches, evalMeterStep, ih]
    | some f =>
      by_cases hn : 100 ≤ bt.n <;> simp [evalBatches, evalMeterStep, ih, hn]

theorem foldl_evalMeterStep (bs : List EvalBatch) :
    ∀ ms : EvalMeters,
      bs.foldl evalMeterStep ms =
        ⟨⟨ms.loss.total + (bs.map (·.lossv)).sum, ms.loss.count + bs.length⟩,
         ⟨ms.acc1.total + (bs.map fun bt => bt.acc1 * (bt.n : ℚ)).sum,
          ms.acc1.count + (bs.map (·.n)).sum⟩,
         ⟨ms.acc5.total + (bs.map fun bt => bt.acc5 * (bt.n : ℚ)).sum,
          ms.acc5.count + (bs.map (·.n)).sum⟩⟩ := by
  induction bs with
  | nil =>
    intro ms
    obtain ⟨⟨a, b⟩, ⟨c, d⟩, ⟨e, f⟩⟩ := ms
    simp
  | cons bt rest ih =>
    intro ms
    obtain ⟨⟨a, b⟩, ⟨c, d⟩, ⟨e, f⟩⟩ := ms
    simp only [List.foldl_cons, ih, evalMeterStep, Meter.update, List.map_cons,
      List.sum_cons, List.length_cons, EvalMeters.mk.injEq, Meter.mk.injEq]
    refine ⟨⟨by push_cast; ring, by omega⟩, ⟨by ring, by omega⟩, by ring, by omega⟩

/-- Claim C7: each evaluation batch records the loss with unit weight and
both accuracies weighted by the batch size, so the local meters hold the
plain loss sum over `numBatches` updates and size-weighted accuracy sums
over `Σ sizes` updates; the returned mapping is the metric-name →
global-average map of the meters after cross-worker reduction. -/
theorem metric_weights (ori : Option (ℕ → ℕ)) (pn : List String)
    (peers : List EvalMeters) (bs : List EvalBatch) :
    (evalBatches ori 0 0 [] initEvalMeters bs).2 =
      ⟨⟨(bs.map (·.lossv)).sum, bs.length⟩,
       ⟨(bs.map fun bt => bt.acc1 * (bt.n : ℚ)).sum, (bs.map (·.n)).sum⟩,
       ⟨(bs.map fun bt => bt.acc5 * (bt.n : ℚ)).sum, (bs.map (·.n)).sum⟩⟩ ∧
    (evaluate ori pn peers bs).2 =
      [("loss",
        (peers.foldl EvalMeters.merge (evalBatches ori 0 0 [] initEvalMeters bs).2).loss.globalAvg),
       ("acc1",
        (peers.foldl EvalMeters.merge (evalBatches ori 0 0 [] initEvalMeters bs).2).acc1.globalAvg),
       ("acc5",
        (peers.foldl EvalMeters.merge (evalBatches ori 0 0 [] initEvalMeters bs).2).acc5.globalAvg)] := by
  constructor
  · rw [evalBatches_snd, foldl_evalMeterStep]
    simp [initEvalMeters]
  · rfl

theorem visEvents_mem_spec (f : ℕ → ℕ) (bt : EvalBatch) (b' bn : ℕ) (e : EvalEvent)
    (he : e ∈ visEvents f bt b' bn) :
    (∃ i, i < 100 ∧ e = .fetch b' (bt.n * bn + i)) ∨
    (∃ i, i < 100 ∧ e = .drawCell b' i ∧ f (bt.n * bn + i) = bt.target i) ∨
    e = .saveFig b' bn := by
  simp only [visEvents, List.mem_append, List.mem_flatMap, List.mem_range,
    List.mem_cons, List.mem_singleton] at he
  rcases he with ⟨i, hi, he | he⟩ | he
  · exact Or.inl ⟨i, hi, he⟩
  · by_cases hc : f (bt.n * bn + i) = bt.target i
    · rw [if_pos hc] at he
      simp only [List.mem_singleton] at he
      exact Or.inr (Or.inl ⟨i, hi, he, hc⟩)
    · rw [if_neg hc] at he
      simp at he
  · rcases he with he | he
    · exact Or.inr (Or.inr he)
    · simp at he

theorem forwardDone_not_mem_vis (f : ℕ → ℕ) (bt : EvalBatch) (b' bn b : ℕ)
    (c : List CacheEntry) :
    EvalEvent.forwardDone b c ∉ visEvents f bt b' bn := by
  intro h
  rcases visEvents_mem_spec f bt b' bn _ h with ⟨i, _, he⟩ | ⟨i, _, he, _⟩ | he <;>
    simp at he

theorem forwardDone_mem_seg (bt : EvalBatch) (i b : ℕ) (c : List CacheEntry)
    (vis : List EvalEvent) (tail : List EvalEvent)
    (hvis : EvalEvent.forwardDone b c ∉ vis)
    (htail : EvalEvent.forwardDone b c ∈ tail → ∀ x ∈ c, x.2 = b)
    (h : EvalEvent.forwardDone b c ∈
      [EvalEvent.cacheCleared i,
       EvalEvent.forwardDone i (bt.writes.map fun nm => (nm, i))] ++ vis ++
      [EvalEvent.meterLoss bt.lossv, EvalEvent.meterAcc1 bt.acc1 bt.n,
       EvalEvent.meterAcc5 bt.acc5 bt.n] ++ tail) :
    ∀ x ∈ c, x.2 = b := by
  simp only [List.append_assoc, List.mem_append, List.mem_cons, List.mem_singleton] at h
  rcases h with (h | h | h) | h | (h | h | h) | h
  · simp at h
  · simp only [EvalEvent.forwardDone.injEq] at h
    intro x hx
    rw [h.2] at hx
    obtain ⟨nm, hnm, hx⟩ := List.mem_map.1 hx
    rw [← hx, h.1]
  · simp at h
  · exact absurd h hvis
  · simp at h
  · simp at h
  · simp at h
  · exact htail h

theorem forwardDone_mem_traceFrom (ori : Option (ℕ → ℕ)) :
    ∀ bs : List EvalBatch, ∀ i bn b c,
      EvalEvent.forwardDone b c ∈ evalTraceFrom ori i bn bs →
      ∀ x ∈ c, x.2 = b := by
  intro bs
  induction bs with
  | nil => intro i bn b c h; simp [evalTraceFrom] at h
  | cons bt rest ih =>
    intro i bn b c h
    cases ori with
    | none =>
      simp only [evalTraceFrom] at h
      exact forwardDone_mem_seg bt i b c [] _ (by simp) (ih (i + 1) bn b c) h
    | some f =>
      by_cases hn : 100 ≤ bt.n
      · simp only [evalTraceFrom, if_pos hn] at h
        exact forwardDone_mem_seg bt i b c (visEvents f bt i bn) _
          (forwardDone_not_mem_vis f bt i bn b c) (ih (i + 1) (bn + 1) b c) h
      · simp only [evalTraceFrom, if_neg hn] at h
        exact forwardDone_mem_seg bt i b c [] _ (by simp) (ih (i + 1) bn b c) h

/-- Claim C2: in the evaluation driver the captured-activations side channel
is cleared before every forward pass, unconditionally, so each snapshot of
the cache taken right after a forward pass contains only entries produced by
that same batch's forward pass. -/
theorem cache_cleared_per_pass (ori : Option (ℕ → ℕ)) (pn : List String)
    (peers : List EvalMeters) (bs : List EvalBatch) (b : ℕ) (c : List CacheEntry)
    (h : EvalEvent.forwardDone b c ∈ (evaluate ori pn peers bs).1) :
    ∀ x ∈ c, x.2 = b := by
  cases ori with
  | none =>
    have heq : (evaluate none pn peers bs).1 = evalTraceFrom none 0 0 bs := by
      simp only [evaluate]
      rw [evalBatches_fst]
      simp
    rw [heq] at h
    exact forwardDone_mem_traceFrom none bs 0 0 b c h
  | some f =>
    have heq : (evaluate (some f) pn peers bs).1 =
        (pn.flatMap fun nm =>
          if nm = "downsample_layers.0.0.weight" then [EvalEvent.kernelFigure] else []) ++
        evalTraceFrom (some f) 0 0 bs := by
      simp only [evaluate]
      rw [evalBatches_fst]
    rw [heq] at h
    rcases List.mem_append.1 h with h | h
    · exfalso
      obtain ⟨nm, _, hmem⟩ := List.mem_flatMap.1 h
      by_cases hnm : nm = "downsample_layers.0.0.weight"
      · rw [if_pos hnm] at hmem; simp at hmem
      · rw [if_neg hnm] at hmem; simp at hmem
    · exact forwardDone_mem_traceFrom (some f) bs 0 0 b c h

/-- Witness for `cache_cleared_per_pass`: after the first batch's forward
pass of a concrete run, the snapshot holds exactly that batch's entry. -/
theorem cache_cleared_per_pass_witness :
    EvalEvent.forwardDone 0 [("x", 0)] ∈
      (evaluate none [] [] [⟨1, fun _ => 0, 0, 0, 0, ["x"]⟩]).1 ∧
    ∀ x ∈ ([("x", 0)] : List CacheEntry), x.2 = 0 :=
  ⟨by decide,
   cache_cleared_per_pass none [] [] [⟨1, fun _ => 0, 0, 0, 0, ["x"]⟩] 0 [("x", 0)]
     (by decide)⟩

theorem kernel_flatMap_eq (pn : List String) (key : String) (x : EvalEvent) :
    (pn.flatMap fun nm => if nm = key then [x] else []) =
      List.replicate (pn.count key) x := by
  induction pn with
  | nil => rfl
  | cons nm rest ih =>
    by_cases h : nm = key
    · subst h
      simp [List.flatMap_cons, ih, List.replicate_succ]
    · simp [List.flatMap_cons, h, ih, List.count_cons]

theorem kernelFigure_not_mem_vis (f : ℕ → ℕ) (bt : EvalBatch) (b' bn : ℕ) :
    EvalEvent.kernelFigure ∉ visEvents f bt b' bn := by
  intro h
  rcases visEvents_mem_spec f bt b' bn _ h with ⟨i, _, he⟩ | ⟨i, _, he, _⟩ | he <;>
    simp at he

theorem kernelFigure_not_mem_seg (bt : EvalBatch) (i : ℕ)
    (vis : List EvalEvent) (tail : List EvalEvent)
    (hvis : EvalEvent.kernelFigure ∉ vis)
    (htail : EvalEvent.kernelFigure ∉ tail) :
    EvalEvent.kernelFigure ∉
      [EvalEvent.cacheCleared i,
       EvalEvent.forwardDone i (bt.writes.map fun nm => (nm, i))] ++ vis ++
      [EvalEvent.meterLoss bt.lossv, EvalEvent.meterAcc1 bt.acc1 bt.n,
       EvalEvent.meterAcc5 bt.acc5 bt.n] ++ tail := by
  intro h
  simp only [List.append_assoc, List.mem_append, List.mem_cons, List.mem_singleton] at h
  rcases h with (h | h | h) | h | (h | h | h) | h
  · simp at h
  · simp at h
  · simp at h
  · exact hvis h
  · simp at h
  · simp at h
  · simp at h
  · exact htail h

theorem kernelFigure_not_mem_traceFrom (ori : Option (ℕ → ℕ)) :
    ∀ bs : List EvalBatch, ∀ i bn,
      EvalEvent.kernelFigure ∉ evalTraceFrom ori i bn bs := by
  intro bs
  induction bs with
  | nil => intro i bn h; simp [evalTraceFrom] at h
  | cons bt rest ih =>
    intro i bn h
    cases ori with
    | none =>
      simp only [evalTraceFrom] at h
      exact kernelFigure_not_mem_seg bt i [] _ (by simp) (ih (i + 1) bn) h
    | some f =>
      by_cases hn : 100 ≤ bt.n
      · simp only [evalTraceFrom, if_pos hn] at h
        exact kernelFigure_not_mem_seg bt i (visEvents f bt i bn) _
          (kernelFigure_not_mem_vis f bt i bn) (ih (i + 1) (bn + 1)) h
      · simp only [evalTraceFrom, if_neg hn] at h
        exact kernelFigure_not_mem_seg bt i [] _ (by simp) (ih (i + 1) bn) h

/-- Claim C10: with a non-null original-dataset reference and a model that
has exactly one parameter named `downsample_layers.0.0.weight`, `evaluate`
emits exactly one convolutional-kernels figure, as the very first event of
the pass — before any batch is processed and regardless of the batches
(in particular also when every batch is smaller than 100 samples). -/
theorem kernel_figure (f : ℕ → ℕ) (pn : List String) (peers : List EvalMeters)
    (bs : List EvalBatch)
    (h : pn.count "downsample_layers.0.0.weight" = 1) :
    (evaluate (some f) pn peers bs).1 =
      EvalEvent.kernelFigure :: evalTraceFrom (some f) 0 0 bs ∧
    EvalEvent.kernelFigure ∉ evalTraceFrom (some f) 0 0 bs := by
  refine ⟨?_, kernelFigure_not_mem_traceFrom (some f) bs 0 0⟩
  have heq : (evaluate (some f) pn peers bs).1 =
      (pn.flatMap fun nm =>
        if nm = "downsample_layers.0.0.weight" then [EvalEvent.kernelFigure] else []) ++
      evalTraceFrom (some f) 0 0 bs := by
    simp only [evaluate]
    rw [evalBatches_fst]
  rw [heq, kernel_flatMap_eq pn "downsample_layers.0.0.weight" EvalEvent.kernelFigure, h]
  simp

/-- Witness for `kernel_figure`: one parameter with the expected name and an
empty batch list yield exactly the one kernel figure. -/
theorem kernel_figure_witness :
    (["downsample_layers.0.0.weight"].count "downsample_layers.0.0.weight" = 1) ∧
    ((evaluate (some fun _ => 0) ["downsample_layers.0.0.weight"] [] []).1 =
      EvalEvent.kernelFigure :: evalTraceFrom (some fun _ => 0) 0 0 [] ∧
    EvalEvent.kernelFigure ∉ evalTraceFrom (some fun _ => 0) 0 0 []) :=
  ⟨by decide,
   kernel_figure (fun _ => 0) ["downsample_layers.0.0.weight"] [] [] (by decide)⟩

theorem visCount_zero (bs : List EvalBatch) : visCount bs 0 = 0 := rfl

theorem visCount_cons_succ (bt : EvalBatch) (rest : List EvalBatch) (j : ℕ) :
    visCount (bt :: rest) (j + 1) =
      (if 100 ≤ bt.n then 1 else 0) + visCount rest j := by
  by_cases hn : 100 ≤ bt.n <;>
    simp [visCount, List.filter_cons, hn, Nat.add_comm]

theorem fetch_mem_vis (f : ℕ → ℕ) (bt : EvalBatch) (b' bn k : ℕ) (hk : k < 100) :
    EvalEvent.fetch b' (bt.n * bn + k) ∈ visEvents f bt b' bn := by
  apply List.mem_append.2
  left
  exact List.mem_flatMap.2 ⟨k, List.mem_range.mpr hk, List.mem_cons_self _ _⟩

theorem drawCell_mem_vis (f : ℕ → ℕ) (bt : EvalBatch) (b' bn k : ℕ) (hk : k < 100)
    (hc : f (bt.n * bn + k) = bt.target k) :
    EvalEvent.drawCell b' k ∈ visEvents f bt b' bn := by
  apply List.mem_append.2
  left
  refine List.mem_flatMap.2 ⟨k, List.mem_range.mpr hk, List.mem_cons_of_mem _ ?_⟩
  rw [if_pos hc]
  simp

theorem drawCell_mem_vis_elim (f : ℕ → ℕ) (bt : EvalBatch) (b' bn b k : ℕ)
    (h : EvalEvent.drawCell b k ∈ visEvents f bt b' bn) :
    b = b' ∧ k < 100 ∧ f (bt.n * bn + k) = bt.target k := by
  rcases visEvents_mem_spec f bt b' bn _ h with ⟨i, hi, he⟩ | ⟨i, hi, he, hc⟩ | he
  · simp at he
  · simp only [EvalEvent.drawCell.injEq] at he
    obtain ⟨h1, h2⟩ := he
    subst h2
    exact ⟨h1, hi, hc⟩
  · simp at he

theorem mem_seg_iff (e : EvalEvent) (bt : EvalBatch) (i : ℕ)
    (vis tail : List EvalEvent)
    (h1 : e ≠ .cacheCleared i)
    (h2 : ∀ c, e ≠ .forwardDone i c)
    (h3 : ∀ v, e ≠ .meterLoss v)
    (h4 : ∀ v n, e ≠ .meterAcc1 v n)
    (h5 : ∀ v n, e ≠ .meterAcc5 v n) :
    (e ∈
      [EvalEvent.cacheCleared i,
       EvalEvent.forwardDone i (bt.writes.map fun nm => (nm, i))] ++ vis ++
      [EvalEvent.meterLoss bt.lossv, EvalEvent.meterAcc1 bt.acc1 bt.n,
       EvalEvent.meterAcc5 bt.acc5 bt.n] ++ tail) ↔
    (e ∈ vis ∨ e ∈ tail) := by
  constructor
  · intro h
    rcases List.mem_append.1 h with h | h
    · rcases List.mem_append.1 h with h | h
      · rcases List.mem_append.1 h with h | h
        · rcases List.mem_cons.1 h with h | h
          · exact absurd h h1
          · rcases List.mem_cons.1 h with h | h
            · exact absurd h (h2 _)
            · simp at h
        · exact Or.inl h
      · rcases List.mem_cons.1 h with h | h
        · exact absurd h (h3 _)
        · rcases List.mem_cons.1 h with h | h
          · exact absurd h (h4 _ _)
          · rcases List.mem_cons.1 h with h | h
            · exact absurd h (h5 _ _)
            · simp at h
    · exact Or.inr h
  · rintro (h | h)
    · exact List.mem_append.2 (Or.inl (List.mem_append.2
        (Or.inl (List.mem_append.2 (Or.inr h)))))
    · exact List.mem_append.2 (Or.inr h)

theorem evalTraceFrom_cons_vis (f : ℕ → ℕ) (bt : EvalBatch) (rest : List EvalBatch)
    (i bn : ℕ) (hn : 100 ≤ bt.n) :
    evalTraceFrom (some f) i bn (bt :: rest) =
      [EvalEvent.cacheCleared i,
       EvalEvent.forwardDone i (bt.writes.map fun nm => (nm, i))] ++
      visEvents f bt i bn ++
      [EvalEvent.meterLoss bt.lossv, EvalEvent.meterAcc1 bt.acc1 bt.n,
       EvalEvent.meterAcc5 bt.acc5 bt.n] ++
      evalTraceFrom (some f) (i + 1) (bn + 1) rest := by
  simp [evalTraceFrom, hn]

theorem evalTraceFrom_cons_novis (f : ℕ → ℕ) (bt : EvalBatch) (rest : List EvalBatch)
    (i bn : ℕ) (hn : ¬ 100 ≤ bt.n) :
    evalTraceFrom (some f) i bn (bt :: rest) =
      [EvalEvent.cacheCleared i,
       EvalEvent.forwardDone i (bt.writes.map fun nm => (nm, i))] ++
      ([] : List EvalEvent) ++
      [EvalEvent.meterLoss bt.lossv, EvalEvent.meterAcc1 bt.acc1 bt.n,
       EvalEvent.meterAcc5 bt.acc5 bt.n] ++
      evalTraceFrom (some f) (i + 1) bn rest := by
  simp [evalTraceFrom, hn]

theorem drawCell_mem_traceFrom_ge (f : ℕ → ℕ) :
    ∀ bs : List EvalBatch, ∀ i bn b k,
      EvalEvent.drawCell b k ∈ evalTraceFrom (some f) i bn bs → i ≤ b := by
  intro bs
  induction bs with
  | nil => intro i bn b k h; simp [evalTraceFrom] at h
  | cons bt rest ih =>
    intro i bn b k h
    by_cases hn : 100 ≤ bt.n
    · rw [evalTraceFrom_cons_vis f bt rest i bn hn] at h
      rcases (mem_seg_iff _ bt i _ _ (by simp) (by simp) (by simp) (by simp) (by simp)).1 h
        with h | h
      · exact (drawCell_mem_vis_elim f bt i bn b k h).1.ge
      · exact (Nat.le_succ i).trans (ih (i + 1) (bn + 1) b k h)
    · rw [evalTraceFrom_cons_novis f bt rest i bn hn] at h
      rcases (mem_seg_iff _ bt i _ _ (by simp) (by simp) (by simp) (by simp) (by simp)).1 h
        with h | h
      · simp at h
      · exact (Nat.le_succ i).trans (ih (i + 1) bn b k h)

theorem vis_spec_traceFrom (f : ℕ → ℕ) :
    ∀ bs : List EvalBatch, ∀ i bn j, ∀ hj : j < bs.length,
      100 ≤ (bs.get ⟨j, hj⟩).n → ∀ k, k < 100 →
      (EvalEvent.fetch (i + j) ((bs.get ⟨j, hj⟩).n * (bn + visCount bs j) + k) ∈
        evalTraceFrom (some f) i bn bs) ∧
      ((EvalEvent.drawCell (i + j) k ∈ evalTraceFrom (some f) i bn bs) ↔
        f ((bs.get ⟨j, hj⟩).n * (bn + visCount bs j) + k) =
          (bs.get ⟨j, hj⟩).target k) := by
  intro bs
  induction bs with
  | nil => intro i bn j hj; exact absurd hj (Nat.not_lt_zero j)
  | cons bt rest ih =>
    intro i bn j hj hn100 k hk
    match j with
    | 0 =>
      have hbt : 100 ≤ bt.n := hn100
      rw [evalTraceFrom_cons_vis f bt rest i bn hbt]
      constructor
      · refine List.mem_append.2 (Or.inl (List.mem_append.2
          (Or.inl (List.mem_append.2 (Or.inr ?_)))))
        have := fetch_mem_vis f bt i bn k hk
        simpa [visCount] using this
      · constructor
        · intro h
          rcases (mem_seg_iff _ bt i _ _ (by simp) (by simp) (by simp) (by simp)
              (by simp)).1 h with h | h
          · have := drawCell_mem_vis_elim f bt i bn (i + 0) k h
            simpa [visCount] using this.2.2
          · have := drawCell_mem_traceFrom_ge f rest (i + 1) (bn + 1) (i + 0) k h
            omega
        · intro hc
          refine (mem_seg_iff _ bt i _ _ (by simp) (by simp) (by simp) (by simp)
            (by simp)).2 (Or.inl ?_)
          have hc' : f (bt.n * bn + k) = bt.target k := by
            simpa [visCount] using hc
          have := drawCell_mem_vis f bt i bn k hk hc'
          simpa using this
    | j' + 1 =>
      have hj' : j' < rest.length := Nat.lt_of_succ_lt_succ hj
      have harith : i + (j' + 1) = (i + 1) + j' := by omega
      by_cases hbt : 100 ≤ bt.n
      · rw [evalTraceFrom_cons_vis f bt rest i bn hbt]
        have hvc : bn + visCount (bt :: rest) (j' + 1) = (bn + 1) + visCount rest j' := by
          rw [visCount_cons_succ, if_pos hbt]
          omega
        obtain ⟨hf, hd⟩ := ih (i + 1) (bn + 1) j' hj' hn100 k hk
        constructor
        · refine List.mem_append.2 (Or.inr ?_)
          rw [harith, hvc]
          exact hf
        · rw [harith, hvc]
          constructor
          · intro h
            rcases (mem_seg_iff _ bt i _ _ (by simp) (by simp) (by simp) (by simp)
                (by simp)).1 h with h | h
            · have := (drawCell_mem_vis_elim f bt i bn _ k h).1
              omega
            · exact hd.1 h
          · intro hc
            exact (mem_seg_iff _ bt i _ _ (by simp) (by simp) (by simp) (by simp)
              (by simp)).2 (Or.inr (hd.2 hc))
      · rw [evalTraceFrom_cons_novis f bt rest i bn hbt]
        have hvc : bn + visCount (bt :: rest) (j' + 1) = bn + visCount rest j' := by
          rw [visCount_cons_succ, if_neg hbt]
          omega
        obtain ⟨hf, hd⟩ := ih (i + 1) bn j' hj' hn100 k hk
        constructor
        · refine List.mem_append.2 (Or.inr ?_)
          rw [harith, hvc]
          exact hf
        · rw [harith, hvc]
          constructor
          · intro h
            rcases (mem_seg_iff _ bt i _ _ (by simp) (by simp) (by simp) (by simp)
                (by simp)).1 h with h | h
            · simp at h
            · exact hd.1 h
          · intro hc
            exact (mem_seg_iff _ bt i _ _ (by simp) (by simp) (by simp) (by simp)
              (by simp)).2 (Or.inr (hd.2 hc))

theorem evaluate_fst_none (pn : List String) (peers : List EvalMeters)
    (bs : List EvalBatch) :
    (evaluate none pn peers bs).1 = evalTraceFrom none 0 0 bs := by
  simp only [evaluate]
  rw [evalBatches_fst]
  simp

theorem evaluate_fst_some (f : ℕ → ℕ) (pn : List String) (peers : List EvalMeters)
    (bs : List EvalBatch) :
    (evaluate (some f) pn peers bs).1 =
      List.replicate (pn.count "downsample_layers.0.0.weight") EvalEvent.kernelFigure ++
      evalTraceFrom (some f) 0 0 bs := by
  simp only [evaluate]
  rw [evalBatches_fst, kernel_flatMap_eq]

theorem mem_evaluate_iff_traceFrom (ori : Option (ℕ → ℕ)) (pn : List String)
    (peers : List EvalMeters) (bs : List EvalBatch) (e : EvalEvent)
    (he : e ≠ EvalEvent.kernelFigure) :
    (e ∈ (evaluate ori pn peers bs).1 ↔ e ∈ evalTraceFrom ori 0 0 bs) := by
  cases ori with
  | none => rw [evaluate_fst_none]
  | some f =>
    rw [evaluate_fst_some]
    constructor
    · intro h
      rcases List.mem_append.1 h with h | h
      · exact absurd (List.eq_of_mem_replicate h) he
      · exact h
    · intro h
      exact List.mem_append.2 (Or.inr h)

theorem figCount_vis (f : ℕ → ℕ) (bt : EvalBatch) (b' bn : ℕ) :
    figCount (visEvents f bt b' bn) = 1 := by
  simp only [figCount, visEvents, List.countP_append]
  have h0 : List.countP
      (fun e => match e with | EvalEvent.saveFig _ _ => true | _ => false)
      ((List.range 100).flatMap fun i =>
        EvalEvent.fetch b' (bt.n * bn + i) ::
        (if f (bt.n * bn + i) = bt.target i then [EvalEvent.drawCell b' i] else [])) = 0 := by
    apply List.countP_eq_zero.mpr
    intro e he
    obtain ⟨q, _, he⟩ := List.mem_flatMap.1 he
    rcases List.mem_cons.1 he with he | he
    · subst he; simp
    · by_cases hc : f (bt.n * bn + q) = bt.target q
      · rw [if_pos hc] at he
        simp only [List.mem_singleton] at he
        subst he; simp
      · rw [if_neg hc] at he
        simp at he
  rw [h0]
  rfl

theorem figCount_traceFrom_some (f : ℕ → ℕ) :
    ∀ bs : List EvalBatch, ∀ i bn,
      figCount (evalTraceFrom (some f) i bn bs) =
        (bs.filter fun bt => 100 ≤ bt.n).length := by
  intro bs
  induction bs with
  | nil => intro i bn; rfl
  | cons bt rest ih =>
    intro i bn
    by_cases hn : 100 ≤ bt.n
    · rw [evalTraceFrom_cons_vis f bt rest i bn hn]
      simp only [figCount, List.countP_append] at *
      rw [ih (i + 1) (bn + 1)]
      have hv := figCount_vis f bt i bn
      simp only [figCount] at hv
      rw [hv]
      simp [List.filter_cons, hn]
      omega
    · rw [evalTraceFrom_cons_novis f bt rest i bn hn]
      simp only [figCount, List.countP_append] at *
      rw [ih (i + 1) bn]
      simp [List.filter_cons, hn]

theorem evalTraceFrom_cons_none (bt : EvalBatch) (rest : List EvalBatch) (i bn : ℕ) :
    evalTraceFrom none i bn (bt :: rest) =
      [EvalEvent.cacheCleared i,
       EvalEvent.forwardDone i (bt.writes.map fun nm => (nm, i))] ++
      ([] : List EvalEvent) ++
      [EvalEvent.meterLoss bt.lossv, EvalEvent.meterAcc1 bt.acc1 bt.n,
       EvalEvent.meterAcc5 bt.acc5 bt.n] ++
      evalTraceFrom none (i + 1) bn rest := by
  simp [evalTraceFrom]

theorem figCount_traceFrom_none :
    ∀ bs : List EvalBatch, ∀ i bn, figCount (evalTraceFrom none i bn bs) = 0 := by
  intro bs
  induction bs with
  | nil => intro i bn; rfl
  | cons bt rest ih =>
    intro i bn
    rw [evalTraceFrom_cons_none]
    simp only [figCount, List.countP_append] at *
    rw [ih (i + 1) bn]
    rfl

theorem drawCell_not_mem_traceFrom_none :
    ∀ bs : List EvalBatch, ∀ i bn b k,
      EvalEvent.drawCell b k ∉ evalTraceFrom none i bn bs := by
  intro bs
  induction bs with
  | nil => intro i bn b k h; simp [evalTraceFrom] at h
  | cons bt rest ih =>
    intro i bn b k h
    rw [evalTraceFrom_cons_none] at h
    rcases (mem_seg_iff _ bt i _ _ (by simp) (by simp) (by simp) (by simp)
        (by simp)).1 h with h | h
    · simp at h
    · exact ih (i + 1) bn b k h

theorem drawCell_elim_traceFrom (f : ℕ → ℕ) :
    ∀ bs : List EvalBatch, ∀ i bn b k,
      EvalEvent.drawCell b k ∈ evalTraceFrom (some f) i bn bs →
      ∃ j, ∃ hj : j < bs.length, b = i + j ∧ 100 ≤ (bs.get ⟨j, hj⟩).n ∧ k < 100 ∧
        f ((bs.get ⟨j, hj⟩).n * (bn + visCount bs j) + k) =
          (bs.get ⟨j, hj⟩).target k := by
  intro bs
  induction bs with
  | nil => intro i bn b k h; simp [evalTraceFrom] at h
  | cons bt rest ih =>
    intro i bn b k h
    by_cases hn : 100 ≤ bt.n
    · rw [evalTraceFrom_cons_vis f bt rest i bn hn] at h
      rcases (mem_seg_iff _ bt i _ _ (by simp) (by simp) (by simp) (by simp)
          (by simp)).1 h with h | h
      · obtain ⟨hb, hk, hc⟩ := drawCell_mem_vis_elim f bt i bn b k h
        exact ⟨0, Nat.succ_pos _, by omega, hn, hk, by simpa [visCount] using hc⟩
      · obtain ⟨j', hj', hb, hn', hk', hc'⟩ := ih (i + 1) (bn + 1) b k h
        refine ⟨j' + 1, Nat.succ_lt_succ hj', by omega, hn', hk', ?_⟩
        have hvc : bn + visCount (bt :: rest) (j' + 1) = (bn + 1) + visCount rest j' := by
          rw [visCount_cons_succ, if_pos hn]
          omega
        rw [hvc]
        exact hc'
    · rw [evalTraceFrom_cons_novis f bt rest i bn hn] at h
      rcases (mem_seg_iff _ bt i _ _ (by simp) (by simp) (by simp) (by simp)
          (by simp)).1 h with h | h
      · simp at h
      · obtain ⟨j', hj', hb, hn', hk', hc'⟩ := ih (i + 1) bn b k h
        refine ⟨j' + 1, Nat.succ_lt_succ hj', by omega, hn', hk', ?_⟩
        have hvc : bn + visCount (bt :: rest) (j' + 1) = bn + visCount rest j' := by
          rw [visCount_cons_succ, if_neg hn]
          omega
        rw [hvc]
        exact hc'

/-- Claim C5: during evaluation with an original-dataset reference, a batch
at loop position `b` with at least 100 samples fetches, for each of the
first 100 local indices `k`, the original sample at global index
`batch_size * batch_num + k`, where `batch_num` (`visCount`) counts exactly
the earlier batches that entered the visualization branch — it starts at 0
and advances only on visualized batches; and grid cell `k` is drawn iff the
fetched label equals the batch's target at `k`. -/
theorem global_index_fetch (f : ℕ → ℕ) (pn : List String) (peers : List EvalMeters)
    (bs : List EvalBatch) (b : ℕ) (hb : b < bs.length)
    (hn : 100 ≤ (bs.get ⟨b, hb⟩).n) (k : ℕ) (hk : k < 100) :
    (EvalEvent.fetch b ((bs.get ⟨b, hb⟩).n * visCount bs b + k) ∈
      (evaluate (some f) pn peers bs).1) ∧
    ((EvalEvent.drawCell b k ∈ (evaluate (some f) pn peers bs).1) ↔
      f ((bs.get ⟨b, hb⟩).n * visCount bs b + k) = (bs.get ⟨b, hb⟩).target k) := by
  have hspec := vis_spec_traceFrom f bs 0 0 b hb hn k hk
  rw [mem_evaluate_iff_traceFrom _ _ _ _ _ (by simp),
    mem_evaluate_iff_traceFrom _ _ _ _ _ (by simp)]
  simpa using hspec

/-- Witness for `global_index_fetch`: a single 100-sample batch with
matching labels fetches global index 0 and draws cell 0. -/
theorem global_index_fetch_witness :
    (100 ≤ (([⟨100, fun _ => 7, 0, 0, 0, []⟩] : List EvalBatch).get ⟨0, by decide⟩).n) ∧
    ((EvalEvent.fetch 0
        ((([⟨100, fun _ => 7, 0, 0, 0, []⟩] : List EvalBatch).get ⟨0, by decide⟩).n *
          visCount [⟨100, fun _ => 7, 0, 0, 0, []⟩] 0 + 0) ∈
      (evaluate (some fun _ => 7) [] [] [⟨100, fun _ => 7, 0, 0, 0, []⟩]).1) ∧
    ((EvalEvent.drawCell 0 0 ∈
        (evaluate (some fun _ => 7) [] [] [⟨100, fun _ => 7, 0, 0, 0, []⟩]).1) ↔
      (fun _ => 7)
          ((([⟨100, fun _ => 7, 0, 0, 0, []⟩] : List EvalBatch).get ⟨0, by decide⟩).n *
            visCount [⟨100, fun _ => 7, 0, 0, 0, []⟩] 0 + 0) =
        (([⟨100, fun _ => 7, 0, 0, 0, []⟩] : List EvalBatch).get ⟨0, by decide⟩).target 0)) :=
  ⟨by decide,
   global_index_fetch (fun _ => 7) [] [] [⟨100, fun _ => 7, 0, 0, 0, []⟩] 0
     (by decide) (by decide) 0 (by decide)⟩

set_option maxRecDepth 8000 in
/-- Counterexample to claim C3 as stated: with a non-null reference, a batch
of size 150 whose first target does not match the corresponding original
label produces a figure with only 99 populated grid cells, not exactly
100. -/
theorem visualization_cells_cex :
    figCount (evaluate (some fun _ => 0) [] []
      [⟨150, fun i => if i = 0 then 1 else 0, 0, 0, 0, []⟩]).1 = 1 ∧
    drawCount (evaluate (some fun _ => 0) [] []
      [⟨150, fun i => if i = 0 then 1 else 0, 0, 0, 0, []⟩]).1 = 99 ∧
    ¬ drawCount (evaluate (some fun _ => 0) [] []
      [⟨150, fun i => if i = 0 then 1 else 0, 0, 0, 0, []⟩]).1 = 100 := by
  decide

theorem figCount_append (a b : List EvalEvent) :
    figCount (a ++ b) = figCount a + figCount b :=
  List.countP_append _ _ _

/-- Claim C3 (amended): visualization triggers exactly for batches with a
non-null original-dataset reference and at least 100 samples (so a run whose
batches all have at most 99 samples saves no figure); in a triggered batch
the populated grid cells are exactly those of the first 100 local indices
whose fetched original label matches the target — each drawn cell is such a
matching index, every matching index below 100 is drawn (at most 100 cells,
not always exactly 100) — and no cell beyond index 99 is ever drawn. -/
theorem visualization_trigger (f : ℕ → ℕ) (pn : List String) (peers : List EvalMeters)
    (bs : List EvalBatch) :
    figCount (evaluate (some f) pn peers bs).1 =
      (bs.filter fun bt => 100 ≤ bt.n).length ∧
    figCount (evaluate none pn peers bs).1 = 0 ∧
    (∀ b k, EvalEvent.drawCell b k ∈ (evaluate (some f) pn peers bs).1 →
      ∃ hb : b < bs.length, k < 100 ∧ 100 ≤ (bs.get ⟨b, hb⟩).n ∧
        f ((bs.get ⟨b, hb⟩).n * visCount bs b + k) = (bs.get ⟨b, hb⟩).target k) ∧
    (∀ b, ∀ hb : b < bs.length, 100 ≤ (bs.get ⟨b, hb⟩).n → ∀ k, k < 100 →
      ((EvalEvent.drawCell b k ∈ (evaluate (some f) pn peers bs).1) ↔
        f ((bs.get ⟨b, hb⟩).n * visCount bs b + k) = (bs.get ⟨b, hb⟩).target k)) ∧
    (∀ b k, EvalEvent.drawCell b k ∉ (evaluate none pn peers bs).1) := by
  have hrep : figCount (List.replicate (pn.count "downsample_layers.0.0.weight")
      EvalEvent.kernelFigure) = 0 :=
    List.countP_eq_zero.mpr fun e he => by rw [List.eq_of_mem_replicate he]; simp
  refine ⟨?_, ?_, ?_, ?_, ?_⟩
  · rw [evaluate_fst_some, figCount_append, hrep, figCount_traceFrom_some f bs 0 0,
      Nat.zero_add]
  · rw [evaluate_fst_none]
    exact figCount_traceFrom_none bs 0 0
  · intro b k h
    rw [mem_evaluate_iff_traceFrom _ _ _ _ _ (by simp)] at h
    obtain ⟨j, hj, hb0, hn', hk', hc'⟩ := drawCell_elim_traceFrom f bs 0 0 b k h
    have hbj : b = j := by omega
    subst hbj
    exact ⟨hj, hk', hn', by simpa using hc'⟩
  · intro b hb hn k hk
    have hspec := (vis_spec_traceFrom f bs 0 0 b hb hn k hk).2
    rw [mem_evaluate_iff_traceFrom _ _ _ _ _ (by simp)]
    simpa using hspec
  · intro b k h
    rw [mem_evaluate_iff_traceFrom _ _ _ _ _ (by simp)] at h
    exact drawCell_not_mem_traceFrom_none bs 0 0 b k h

set_option maxRecDepth 8000 in
/-- Witness for `visualization_trigger`: a run over a single 99-sample batch
with a non-null reference saves zero figures, and in a visualized 100-sample
batch a drawn cell satisfies the match characterization. -/
theorem visualization_trigger_witness :
    (figCount (evaluate (some fun _ => 0) [] []
      [⟨99, fun _ => 0, 0, 0, 0, []⟩]).1 =
      (([⟨99, fun _ => 0, 0, 0, 0, []⟩] : List EvalBatch).filter
        fun bt => 100 ≤ bt.n).length) ∧
    (EvalEvent.drawCell 0 0 ∈
      (evaluate (some fun _ => 5) [] [] [⟨100, fun _ => 5, 0, 0, 0, []⟩]).1) ∧
    (∃ hb : (0 : ℕ) < List.length ([⟨100, fun _ => 5, 0, 0, 0, []⟩] : List EvalBatch),
      (0 : ℕ) < 100 ∧
      100 ≤ (([⟨100, fun _ => 5, 0, 0, 0, []⟩] : List EvalBatch).get ⟨0, hb⟩).n ∧
      (fun _ => 5)
          ((([⟨100, fun _ => 5, 0, 0, 0, []⟩] : List EvalBatch).get ⟨0, hb⟩).n *
            visCount [⟨100, fun _ => 5, 0, 0, 0, []⟩] 0 + 0) =
        (([⟨100, fun _ => 5, 0, 0, 0, []⟩] : List EvalBatch).get ⟨0, hb⟩).target 0) ∧
    ((EvalEvent.drawCell 0 0 ∈
        (evaluate (some fun _ => 5) [] [] [⟨100, fun _ => 5, 0, 0, 0, []⟩]).1) ↔
      (fun _ => 5)
          ((([⟨100, fun _ => 5, 0, 0, 0, []⟩] : List EvalBatch).get
              ⟨0, by decide⟩).n *
            visCount [⟨100, fun _ => 5, 0, 0, 0, []⟩] 0 + 0) =
        (([⟨100, fun _ => 5, 0, 0, 0, []⟩] : List EvalBatch).get
            ⟨0, by decide⟩).target 0) :=
  ⟨(visualization_trigger (fun _ => 0) [] [] [⟨99, fun _ => 0, 0, 0, 0, []⟩]).1,
   by decide,
   (visualization_trigger (fun _ => 5) [] [] [⟨100, fun _ => 5, 0, 0, 0, []⟩]).2.2.1 0 0
     (by decide),
   (visualization_trigger (fun _ => 5) [] [] [⟨100, fun _ => 5, 0, 0, 0, []⟩]).2.2.2.1 0
     (by decide) (by decide) 0 (by decide)⟩
